import Mathlib

/-!
Shallow embedding of `src/binary-heap.js` (jedstrom/js-binary-heap).

The heap stores JavaScript values in a dynamically sized array.  We model the
backing array as a `List V` over an arbitrary value type `V` carrying an
`Inhabited` instance whose `default` plays the role of JavaScript's
`undefined`: reading an out-of-bounds index (`l.getD i default`) yields
`undefined`, exactly as `this[_storage][i]` does in JS.  For claims where the
distinction between stored elements, `undefined`, and the boolean sentinel
`false` matters, `V` is instantiated with `JSVal α` below.

Comparators are three-way: `cmp a b < 0` means `a` sorts before `b`,
`0` means equivalent, `> 0` means after.
-/

namespace BinaryHeap

/-- The two heap modes, exported as the symbols `MinHeap` / `MaxHeap` by the
repository's `mode.js` (imported by `binary-heap.js`). -/
inductive Mode where
  | MinHeap
  | MaxHeap
deriving DecidableEq, Repr

/-- A JavaScript value as far as the heap is concerned: `undefined`, a
boolean, or a proper element of type `α`. -/
inductive JSVal (α : Type) where
  | undef : JSVal α
  | bool (b : Bool) : JSVal α
  | val (a : α) : JSVal α
deriving DecidableEq, Repr

instance {α : Type} : Inhabited (JSVal α) := ⟨JSVal.undef⟩

variable {V : Type} [Inhabited V]

/-- JS array indexing `storage[i]`: the element when in bounds, `undefined`
(modelled by `default`) otherwise. -/
def jget (l : List V) (i : Nat) : V :=
  l.getD i default

/-- The JS destructuring swap `[storage[j], storage[i]] = [storage[i], storage[j]]`
used by both sift directions: position `j` receives the element at `i`, then
position `i` receives the (original) element at `j`. -/
def swap (l : List V) (i j : Nat) : List V :=
  (l.set j (jget l i)).set i (jget l j)

/-- Sign adjustment in `_heapUp` (source line 181): the comparison result is
negated in Max mode. -/
def upSign : Mode → Int
  | Mode.MaxHeap => -1
  | Mode.MinHeap => 1

/-- Sign adjustment in `_heapDown` (source line 149): the comparison result
is negated in Min mode. -/
def downSign : Mode → Int
  | Mode.MinHeap => -1
  | Mode.MaxHeap => 1

/-- The child index selected inside `_heapDown` when sifting down from
`index` (source lines 113-144): with both children in bounds, Max mode picks
the child the comparator ranks higher-or-equal (left on ties), Min mode the
lower-ranked child (right on ties); otherwise the left child. -/
def downChildIndex (cmp : V → V → Int) (mode : Mode) (l : List V) (index : Nat) : Nat :=
  if 2 * index + 1 < l.length ∧ 2 * index + 2 < l.length then
    match mode with
    | Mode.MaxHeap =>
        if 0 ≤ cmp (jget l (2 * index + 1)) (jget l (2 * index + 2)) then 2 * index + 1
        else 2 * index + 2
    | Mode.MinHeap =>
        if 0 ≤ cmp (jget l (2 * index + 1)) (jget l (2 * index + 2)) then 2 * index + 2
        else 2 * index + 1
  else 2 * index + 1

/-- `_heapDown` (source lines 99-162): stop when the left child index
`2*index+1` falls outside the backing store; otherwise compare the current
element against the appropriate child, stop when the mode-adjusted result is
`≥ 0`, and otherwise swap the current element with that child and continue
sifting down from the child's index. -/
def heapDown (cmp : V → V → Int) (mode : Mode) (l : List V) (index : Nat) : List V :=
  if l.length ≤ 2 * index + 1 then l
  else if 0 ≤ cmp (jget l index) (jget l (downChildIndex cmp mode l index)) * downSign mode then l
  else heapDown cmp mode (swap l index (downChildIndex cmp mode l index))
    (downChildIndex cmp mode l index)
termination_by l.length - index
decreasing_by
  have hidx : index < downChildIndex cmp mode l index := by
    unfold downChildIndex
    split
    · split <;> split <;> omega
    · omega
  simp only [swap, List.length_set]
  omega

/-- `_heapUp` (source lines 170-199).  The source only ever invokes it with
`index ≥ 1` (from `insert` when the storage holds at least two elements, and
recursively only when `parentIndex ≠ 0`), where the JS parent computation
`Math.floor((index - 1) / 2)` coincides with truncating `Nat` arithmetic.
Compare the current element against its parent; stop when the mode-adjusted
result is `≥ 0`, otherwise swap with the parent, and continue sifting up from
the parent's index unless the root has been reached. -/
def heapUp (cmp : V → V → Int) (mode : Mode) (l : List V) (index : Nat) : List V :=
  if 0 ≤ cmp (jget l index) (jget l ((index - 1) / 2)) * upSign mode then l
  else if (index - 1) / 2 = 0 then swap l index ((index - 1) / 2)
  else heapUp cmp mode (swap l index ((index - 1) / 2)) ((index - 1) / 2)
termination_by index
decreasing_by
  rename_i hne
  omega

/-- `insert` (source lines 46-57): push the element onto the end of storage;
if it is the only element there is nothing to heapify, otherwise heap-up from
the last index. -/
def insert (cmp : V → V → Int) (mode : Mode) (l : List V) (element : V) : List V :=
  if (l ++ [element]).length = 1 then l ++ [element]
  else heapUp cmp mode (l ++ [element]) ((l ++ [element]).length - 1)

/-- `peek` (source lines 65-69): the root element when storage is non-empty,
the boolean `false` otherwise.  The source performs no mutation, which the
embedding reflects by returning only a value and no updated storage. -/
def peek {α : Type} (l : List (JSVal α)) : JSVal α :=
  if l.length ≠ 0 then jget l 0 else JSVal.bool false

/-- The storage update performed by `remove` outside the single-element
branch: `this[_storage][0] = this[_storage].pop()`.  `pop` removes and
returns the last element (`undefined` on an empty array, which it leaves
empty), and the index-0 assignment then writes that value, extending the
empty array to `[undefined]`. -/
def popAssignRoot (l : List V) : List V :=
  if l.length = 0 then [default]
  else (l.dropLast).set 0 (l.getLastD default)

/-- `remove` (source lines 76-91): with exactly one element in storage, pop
and return it; otherwise capture the root, move the last element into the
root position, and heap-down from the root.  Returns the removed value
together with the updated storage. -/
def remove (cmp : V → V → Int) (mode : Mode) (l : List V) : V × List V :=
  if l.length = 1 then (l.getLastD default, [])
  else (jget l 0, heapDown cmp mode (popAssignRoot l) 0)

/-- Draining helper: call `remove` `n` times, collecting the returned values
in order (the repository's tests drain with `while (el = h.remove())`). -/
def drainN (cmp : V → V → Int) (mode : Mode) : Nat → List V → List V
  | 0, _ => []
  | n + 1, l =>
      (remove cmp mode l).1 :: drainN cmp mode n (remove cmp mode l).2

/-- Draining a heap completely: one `remove` per stored element. -/
def drain (cmp : V → V → Int) (mode : Mode) (l : List V) : List V :=
  drainN cmp mode l.length l

/-- Running `n` removes in sequence, keeping only the storage. -/
def removeN (cmp : V → V → Int) (mode : Mode) : Nat → List V → List V
  | 0, l => l
  | n + 1, l => removeN cmp mode n (remove cmp mode l).2

/-- The `mode` argument passed to `init`: either one of the two recognized
mode symbols or any other value (which `[MinHeap, MaxHeap].indexOf` rejects). -/
inductive ModeArg where
  | mode (m : Mode)
  | invalid
deriving DecidableEq, Repr

/-- The `comparator` argument passed to `init`: either a callable with the
comparator signature or a value whose `typeof` is not `'function'`. -/
inductive ComparatorArg (V : Type) where
  | fn (f : V → V → Int)
  | notFunction

/-- A constructed heap object: mode, comparator and backing storage
(`this[_mode]`, `this[_comparator]`, `this[_storage]`). -/
structure Heap (V : Type) where
  mode : Mode
  comparator : V → V → Int
  storage : List V

/-- `init` (source lines 23-39): validate the mode first
(`throw new Error('Invalid mode')`), then the comparator
(`throw new Error('Invalid comparator')`), then initialize with empty
storage. -/
def init (modeArg : ModeArg) (comparatorArg : ComparatorArg V) : Except String (Heap V) :=
  match modeArg with
  | ModeArg.invalid => Except.error "Invalid mode"
  | ModeArg.mode m =>
      match comparatorArg with
      | ComparatorArg.notFunction => Except.error "Invalid comparator"
      | ComparatorArg.fn f => Except.ok { mode := m, comparator := f, storage := [] }

/-- Modelled from the spec: `binary-heap.js` imports
`naivePrimitiveComparator` from `./naive-primitive-comparator`, a module of
this repository not present under `src/`.  The spec describes it as the
naive primitive three-way comparator `(a < b) ? -1 : (a > b) ? 1 : 0`. -/
def naivePrimitiveComparator {α : Type} [LT α] [DecidableRel (fun a b : α => a < b)]
    (a b : α) : Int :=
  if a < b then -1 else if b < a then 1 else 0

/-- `Factory` (source lines 202-204): default arguments are `MinHeap` and
`naivePrimitiveComparator`; `none` models an argument position left off by
the caller. -/
def Factory {α : Type} [LT α] [DecidableRel (fun a b : α => a < b)]
    (modeArg : Option ModeArg) (comparatorArg : Option (ComparatorArg α)) :
    Except String (Heap α) :=
  init (modeArg.getD (ModeArg.mode Mode.MinHeap))
    (comparatorArg.getD (ComparatorArg.fn naivePrimitiveComparator))

/-- The mode-appropriate "not worse than" relation between stored values:
in Min mode `cmp a b ≤ 0`, in Max mode `cmp a b ≥ 0`. -/
def modeLe (cmp : V → V → Int) (mode : Mode) (a b : V) : Prop :=
  match mode with
  | Mode.MinHeap => cmp a b ≤ 0
  | Mode.MaxHeap => 0 ≤ cmp a b

/-- The heap property: every index whose child (at `2i+1` or `2i+2`) lies
within storage bounds is "not worse than" that child. -/
def heapProp (cmp : V → V → Int) (mode : Mode) (l : List V) : Prop :=
  ∀ i j, (j = 2 * i + 1 ∨ j = 2 * i + 2) → j < l.length →
    modeLe cmp mode (jget l i) (jget l j)

/-- The comparator contract assumed by the spec: a consistent total order.
`flip` says the comparator is antisymmetric in sign (swapping the arguments
flips the sign), and `le_trans` that the induced "sorts no later than"
relation is transitive.  Totality of that relation is derivable from
`flip`. -/
structure CmpContract (cmp : V → V → Int) : Prop where
  flip : ∀ a b, 0 ≤ cmp a b ↔ cmp b a ≤ 0
  le_trans : ∀ a b c, cmp a b ≤ 0 → cmp b c ≤ 0 → cmp a c ≤ 0

/-- Heap storages reachable through the public interface: the empty storage
of a fresh heap, followed by any sequence of `insert` and `remove` calls. -/
inductive Reachable (cmp : V → V → Int) (mode : Mode) : List V → Prop where
  | empty : Reachable cmp mode []
  | insertStep (l : List V) (x : V) :
      Reachable cmp mode l → Reachable cmp mode (insert cmp mode l x)
  | removeStep (l : List V) :
      Reachable cmp mode l → Reachable cmp mode (remove cmp mode l).2

/-- Sift-up exactly as the spec's words describe it (claim C8): at index
`i > 0` the parent is `⌊(i-1)/2⌋`; compute `comparator(value, parentValue)`,
negate it in Max mode, stop when the adjusted result is `≥ 0`, otherwise swap
with the parent and recurse from the parent's index, terminating at
index 0. -/
def siftUpSpec (cmp : V → V → Int) (mode : Mode) (l : List V) : Nat → List V
  | 0 => l
  | i + 1 =>
      if (0 : Int) ≤ (match mode with
              | Mode.MaxHeap => -cmp (jget l (i + 1)) (jget l (i / 2))
              | Mode.MinHeap => cmp (jget l (i + 1)) (jget l (i / 2)))
      then l
      else siftUpSpec cmp mode (swap l (i + 1) (i / 2)) (i / 2)
termination_by i => i
decreasing_by omega

/-- Insertion as the spec's words describe it (claim C8): append the element
to the end of storage, then sift up from the new element's index. -/
def insertSpec (cmp : V → V → Int) (mode : Mode) (l : List V) (element : V) : List V :=
  siftUpSpec cmp mode (l ++ [element]) ((l ++ [element]).length - 1)

/-- Sift-down exactly as the spec's words describe it (claim C9): stop when
the left child index `2i+1` is out of bounds; with both children in bounds
compare against the child the comparator ranks higher-or-equal in Max mode
and the lower-ranked child in Min mode, otherwise against the left child;
negate the comparison result in Min mode, stop when the adjusted result is
`≥ 0`, otherwise swap into the chosen child's position and recurse from that
index. -/
def siftDownSpec (cmp : V → V → Int) (mode : Mode) (l : List V) (index : Nat) : List V :=
  if l.length ≤ 2 * index + 1 then l
  else if (0 : Int) ≤ (match mode with
               | Mode.MinHeap => -cmp (jget l index) (jget l (downChildIndex cmp mode l index))
               | Mode.MaxHeap => cmp (jget l index) (jget l (downChildIndex cmp mode l index)))
  then l
  else siftDownSpec cmp mode (swap l index (downChildIndex cmp mode l index))
    (downChildIndex cmp mode l index)
termination_by l.length - index
decreasing_by
  have hidx : index < downChildIndex cmp mode l index := by
    unfold downChildIndex
    split
    · split <;> split <;> omega
    · omega
  simp only [swap, List.length_set]
  omega

/-- Removal as the spec's words describe it (claim C9): with exactly one
element, pop and return it directly with no sift; otherwise capture the
root, move the last storage element into the root position, shrink storage
by one, and sift down from the root. -/
def removeSpec (cmp : V → V → Int) (mode : Mode) (l : List V) : V × List V :=
  if l.length = 1 then (l.getLastD default, [])
  else (jget l 0, siftDownSpec cmp mode ((l.dropLast).set 0 (l.getLastD default)) 0)

/-- Intermediate invariant for sift-up with the freshly placed element at
index `k`: every parent-child edge not pointing at `k` satisfies the heap
relation, and the element at `k`'s parent is already "not worse than" `k`'s
children (the relation that must survive when the element at `k` moves up). -/
def upInv (cmp : V → V → Int) (mode : Mode) (l : List V) (k : Nat) : Prop :=
  (∀ i j, (j = 2 * i + 1 ∨ j = 2 * i + 2) → j < l.length → j ≠ k →
    modeLe cmp mode (jget l i) (jget l j)) ∧
  (∀ j, (j = 2 * k + 1 ∨ j = 2 * k + 2) → j < l.length →
    modeLe cmp mode (jget l ((k - 1) / 2)) (jget l j))

/-- Intermediate invariant for sift-down with the relocated element at index
`k`: every parent-child edge not starting at `k` satisfies the heap
relation, and (when `k` is not the root) `k`'s parent is already "not worse
than" `k`'s children. -/
def downInv (cmp : V → V → Int) (mode : Mode) (l : List V) (k : Nat) : Prop :=
  (∀ i j, (j = 2 * i + 1 ∨ j = 2 * i + 2) → j < l.length → i ≠ k →
    modeLe cmp mode (jget l i) (jget l j)) ∧
  (∀ j, (j = 2 * k + 1 ∨ j = 2 * k + 2) → j < l.length → k ≠ 0 →
    modeLe cmp mode (jget l ((k - 1) / 2)) (jget l j))

/-! ### Basic facts about `jget`, `set` and `swap` -/

theorem jget_eq_getElem (l : List V) (i : Nat) (h : i < l.length) :
    jget l i = l[i] := by
  simp [jget, List.getD_eq_getElem?_getD, List.getElem?_eq_getElem h]

theorem jget_set_self (l : List V) (i : Nat) (x : V) (h : i < l.length) :
    jget (l.set i x) i = x := by
  rw [jget_eq_getElem _ _ (by simpa using h)]
  simp [List.getElem_set_self]

theorem jget_set_ne (l : List V) (i j : Nat) (x : V) (h : i ≠ j) :
    jget (l.set i x) j = jget l j := by
  simp [jget, List.getD_eq_getElem?_getD, List.getElem?_set_ne h]

theorem length_swap (l : List V) (i j : Nat) : (swap l i j).length = l.length := by
  simp [swap]

theorem jget_swap_fst (l : List V) (i j : Nat) (hi : i < l.length) :
    jget (swap l i j) i = jget l j := by
  rw [swap, jget_set_self _ _ _ (by simpa using hi)]

theorem jget_swap_snd (l : List V) (i j : Nat) (hj : j < l.length) (hij : i ≠ j) :
    jget (swap l i j) j = jget l i := by
  rw [swap, jget_set_ne _ _ _ _ hij, jget_set_self _ _ _ hj]

theorem jget_swap_other (l : List V) (i j k : Nat) (hki : k ≠ i) (hkj : k ≠ j) :
    jget (swap l i j) k = jget l k := by
  rw [swap, jget_set_ne _ _ _ _ (Ne.symm hki), jget_set_ne _ _ _ _ (Ne.symm hkj)]

theorem jget_append_lt (l : List V) (x : V) (j : Nat) (h : j < l.length) :
    jget (l ++ [x]) j = jget l j := by
  simp [jget, List.getD_eq_getElem?_getD, List.getElem?_append_left h]

theorem jget_append_self (l : List V) (x : V) : jget (l ++ [x]) l.length = x := by
  have h : l.length < (l ++ [x]).length := by simp
  rw [jget_eq_getElem _ _ h]
  simp

theorem getLastD_eq_jget (l : List V) (h : l ≠ []) :
    l.getLastD default = jget l (l.length - 1) := by
  have hlen : l.length - 1 < l.length := by
    have := List.length_pos.mpr h
    omega
  rw [jget_eq_getElem _ _ hlen, List.getLastD_eq_getLast?, List.getLast?_eq_getElem?,
    List.getElem?_eq_getElem hlen]
  rfl

theorem jget_dropLast (l : List V) (j : Nat) (h : j < l.length - 1) :
    jget l.dropLast j = jget l j := by
  have h1 : j < l.dropLast.length := by simp [List.length_dropLast]; omega
  have h2 : j < l.length := by omega
  rw [jget_eq_getElem _ _ h1, jget_eq_getElem _ _ h2]
  exact List.getElem_dropLast l j h1

/-! ### `swap` is a permutation -/

theorem set_jget_self (l : List V) (i : Nat) (h : i < l.length) :
    l.set i (jget l i) = l := by
  rw [jget_eq_getElem _ _ h]
  apply List.ext_getElem
  · simp
  · intro n h1 h2
    rw [List.getElem_set]
    split
    · subst i
      rfl
    · rfl

theorem cons_set_perm (t : List V) (j : Nat) (a : V) (h : j < t.length) :
    List.Perm (jget t j :: t.set j a) (a :: t) := by
  induction t generalizing j with
  | nil => simp at h
  | cons b s ih =>
      cases j with
      | zero =>
          have : jget (b :: s) 0 = b := by simp [jget]
          rw [this]
          simpa [List.set] using List.Perm.swap a b s
      | succ m =>
          have hm : m < s.length := by simpa using h
          have h1 : jget (b :: s) (m + 1) = jget s m := by simp [jget]
          rw [h1]
          have e1 : (b :: s).set (m + 1) a = b :: s.set m a := by simp [List.set]
          rw [e1]
          have p1 : List.Perm (jget s m :: b :: s.set m a) (b :: jget s m :: s.set m a) :=
            List.Perm.swap _ _ _
          have p2 : List.Perm (b :: jget s m :: s.set m a) (b :: a :: s) :=
            List.Perm.cons b (ih m hm)
          have p3 : List.Perm (b :: a :: s) (a :: b :: s) := List.Perm.swap _ _ _
          exact (p1.trans p2).trans p3

theorem swap_perm (l : List V) (i j : Nat) (hi : i < l.length) (hj : j < l.length) :
    List.Perm (swap l i j) l := by
  rcases eq_or_ne i j with rfl | hij
  · rw [swap, set_jget_self _ _ hi, set_jget_self _ _ hi]
  · induction l generalizing i j with
    | nil => simp at hi
    | cons a t ih =>
        cases i with
        | zero =>
            cases j with
            | zero => exact absurd rfl hij
            | succ m =>
                have hm : m < t.length := by simpa using hj
                have h0 : jget (a :: t) 0 = a := by simp [jget]
                have hsm : jget (a :: t) (m + 1) = jget t m := by simp [jget]
                rw [swap, h0, hsm]
                have e1 : ((a :: t).set (m + 1) a).set 0 (jget t m)
                    = jget t m :: t.set m a := by simp [List.set]
                rw [e1]
                exact cons_set_perm t m a hm
        | succ n =>
            cases j with
            | zero =>
                have hn : n < t.length := by simpa using hi
                have h0 : jget (a :: t) 0 = a := by simp [jget]
                have hsn : jget (a :: t) (n + 1) = jget t n := by simp [jget]
                rw [swap, hsn, h0]
                have e1 : ((a :: t).set 0 (jget t n)).set (n + 1) a
                    = jget t n :: t.set n a := by simp [List.set]
                rw [e1]
                exact cons_set_perm t n a hn
            | succ m =>
                have hn : n < t.length := by simpa using hi
                have hm : m < t.length := by simpa using hj
                have hnm : n ≠ m := by omega
                have h1 : jget (a :: t) (n + 1) = jget t n := by simp [jget]
                have h2 : jget (a :: t) (m + 1) = jget t m := by simp [jget]
                have : swap (a :: t) (n + 1) (m + 1) = a :: swap t n m := by
                  simp [swap, List.set, h1, h2]
                rw [this]
                exact List.Perm.cons a (ih n m hn hm hnm)

/-! ### Consequences of the comparator contract -/

omit [Inhabited V] in
theorem CmpContract.cmp_self {cmp : V → V → Int} (hc : CmpContract cmp) (a : V) :
    cmp a a = 0 := by
  rcases lt_trichotomy (cmp a a) 0 with h | h | h
  · have := (hc.flip a a).mpr h.le
    omega
  · exact h
  · have := (hc.flip a a).mp h.le
    omega

omit [Inhabited V] in
theorem modeLe_refl {cmp : V → V → Int} (hc : CmpContract cmp) (mode : Mode) (a : V) :
    modeLe cmp mode a a := by
  cases mode <;> simp [modeLe, hc.cmp_self]

omit [Inhabited V] in
theorem modeLe_total {cmp : V → V → Int} (hc : CmpContract cmp) (mode : Mode) (a b : V) :
    modeLe cmp mode a b ∨ modeLe cmp mode b a := by
  cases mode <;> simp only [modeLe]
  · rcases le_or_lt (cmp a b) 0 with h | h
    · exact Or.inl h
    · exact Or.inr ((hc.flip a b).mp h.le)
  · rcases le_or_lt 0 (cmp a b) with h | h
    · exact Or.inl h
    · exact Or.inr ((hc.flip b a).mpr h.le)

omit [Inhabited V] in
theorem modeLe_of_not_modeLe {cmp : V → V → Int} (hc : CmpContract cmp) {mode : Mode}
    {a b : V} (h : ¬ modeLe cmp mode a b) : modeLe cmp mode b a :=
  (modeLe_total hc mode a b).resolve_left h

omit [Inhabited V] in
theorem modeLe_trans {cmp : V → V → Int} (hc : CmpContract cmp) {mode : Mode}
    {a b c : V} (hab : modeLe cmp mode a b) (hbc : modeLe cmp mode b c) :
    modeLe cmp mode a c := by
  cases mode <;> simp only [modeLe] at *
  · exact hc.le_trans a b c hab hbc
  · exact (hc.flip a c).mpr
      (hc.le_trans c b a ((hc.flip b c).mp hbc) ((hc.flip a b).mp hab))

omit [Inhabited V] in
/-- The stop condition of `_heapUp` says exactly that the parent is "not
worse than" the current element. -/
theorem upStop_iff {cmp : V → V → Int} (hc : CmpContract cmp) (mode : Mode) (v p : V) :
    (0 ≤ cmp v p * upSign mode) ↔ modeLe cmp mode p v := by
  cases mode <;> simp only [upSign, modeLe, mul_one, mul_neg_one]
  · exact hc.flip v p
  · constructor
    · intro h
      exact (hc.flip p v).mpr (by omega)
    · intro h
      have := (hc.flip p v).mp h
      omega

omit [Inhabited V] in
/-- The stop condition of `_heapDown` says exactly that the current element
is "not worse than" the chosen child. -/
theorem downStop_iff {cmp : V → V → Int} (mode : Mode) (v c : V) :
    (0 ≤ cmp v c * downSign mode) ↔ modeLe cmp mode v c := by
  cases mode <;> simp only [downSign, modeLe, mul_one, mul_neg_one]
  · omega

/-! ### Correctness of sift-up -/

omit [Inhabited V] in
theorem parent_of_child {i j : Nat} (h : j = 2 * i + 1 ∨ j = 2 * i + 2) :
    i = (j - 1) / 2 ∧ 1 ≤ j := by omega

theorem heapProp_short {cmp : V → V → Int} {mode : Mode} {l : List V} (h : l.length ≤ 1) :
    heapProp cmp mode l := by
  intro i j hj hjlen
  omega

theorem heapProp_of_upInv_stop {cmp : V → V → Int} {mode : Mode} {l : List V} {k : Nat}
    (hinv : upInv cmp mode l k)
    (hstop : modeLe cmp mode (jget l ((k - 1) / 2)) (jget l k)) :
    heapProp cmp mode l := by
  intro i j hj hjlen
  rcases eq_or_ne j k with rfl | hne
  · obtain ⟨hi, _⟩ := parent_of_child hj
    rw [hi]
    exact hstop
  · exact hinv.1 i j hj hjlen hne

theorem heapProp_of_upInv_zero {cmp : V → V → Int} {mode : Mode} {l : List V}
    (hinv : upInv cmp mode l 0) : heapProp cmp mode l := by
  intro i j hj hjlen
  exact hinv.1 i j hj hjlen (by omega)

theorem upInv_swap {cmp : V → V → Int} {mode : Mode} (hc : CmpContract cmp)
    {l : List V} {k : Nat} (hk : 1 ≤ k) (hklen : k < l.length)
    (hinv : upInv cmp mode l k)
    (hlt : modeLe cmp mode (jget l k) (jget l ((k - 1) / 2))) :
    upInv cmp mode (swap l k ((k - 1) / 2)) ((k - 1) / 2) := by
  set p := (k - 1) / 2 with hp
  have hpk : p < k := by omega
  have hplen : p < l.length := lt_trans hpk hklen
  have hsk : jget (swap l k p) k = jget l p := jget_swap_fst l k p hklen
  have hsp : jget (swap l k p) p = jget l k := jget_swap_snd l k p hplen (by omega)
  have hlen : (swap l k p).length = l.length := length_swap l k p
  constructor
  · intro i j hj hjlen' hjp
    rw [hlen] at hjlen'
    obtain ⟨hij, hj1⟩ := parent_of_child hj
    by_cases hjk : j = k
    · subst hjk
      have hip : i = p := by omega
      subst hip
      rw [hsk, hsp]
      exact hlt
    · have hsj : jget (swap l k p) j = jget l j := jget_swap_other l k p j hjk hjp
      by_cases hip : i = p
      · subst hip
        rw [hsp, hsj]
        exact modeLe_trans hc hlt (hinv.1 p j hj hjlen' hjk)
      · by_cases hik : i = k
        · subst hik
          rw [hsk, hsj]
          exact hinv.2 j hj hjlen'
        · rw [jget_swap_other l k p i hik hip, hsj]
          exact hinv.1 i j hj hjlen' hjk
  · intro j hj hjlen'
    rw [hlen] at hjlen'
    by_cases hp0 : p = 0
    · have h00 : (p - 1) / 2 = p := by omega
      rw [h00, hsp]
      by_cases hjk : j = k
      · subst hjk
        rw [hsk]
        exact hlt
      · rw [jget_swap_other l k p j hjk (by omega)]
        exact modeLe_trans hc hlt (hinv.1 p j hj hjlen' hjk)
    · have hgp : (p - 1) / 2 < p := by omega
      have hpchild : p = 2 * ((p - 1) / 2) + 1 ∨ p = 2 * ((p - 1) / 2) + 2 := by omega
      have hsgp : jget (swap l k p) ((p - 1) / 2) = jget l ((p - 1) / 2) :=
        jget_swap_other l k p _ (by omega) (by omega)
      have hG : modeLe cmp mode (jget l ((p - 1) / 2)) (jget l p) :=
        hinv.1 _ p hpchild hplen (by omega)
      rw [hsgp]
      by_cases hjk : j = k
      · subst hjk
        rw [hsk]
        exact hG
      · rw [jget_swap_other l k p j hjk (by omega)]
        exact modeLe_trans hc hG (hinv.1 p j hj hjlen' hjk)

theorem heapUp_heapProp {cmp : V → V → Int} {mode : Mode} (hc : CmpContract cmp) :
    ∀ (l : List V) (k : Nat), 1 ≤ k → k < l.length → upInv cmp mode l k →
      heapProp cmp mode (heapUp cmp mode l k) := by
  intro l k
  induction l, k using heapUp.induct cmp mode with
  | case1 l k hstop =>
      intro hk hklen hinv
      rw [heapUp.eq_def, if_pos hstop]
      exact heapProp_of_upInv_stop hinv ((upStop_iff hc mode _ _).mp hstop)
  | case2 l k hstop hp0 =>
      intro hk hklen hinv
      rw [heapUp.eq_def, if_neg hstop, if_pos hp0]
      have hlt : modeLe cmp mode (jget l k) (jget l ((k - 1) / 2)) :=
        modeLe_of_not_modeLe hc (fun h => hstop ((upStop_iff hc mode _ _).mpr h))
      have h2 := upInv_swap hc hk hklen hinv hlt
      rw [hp0] at h2 ⊢
      exact heapProp_of_upInv_zero h2
  | case3 l k hstop hp0 ih =>
      intro hk hklen hinv
      rw [heapUp.eq_def, if_neg hstop, if_neg hp0]
      have hlt : modeLe cmp mode (jget l k) (jget l ((k - 1) / 2)) :=
        modeLe_of_not_modeLe hc (fun h => hstop ((upStop_iff hc mode _ _).mpr h))
      exact ih (by omega) (by rw [length_swap]; omega)
        (upInv_swap hc hk hklen hinv hlt)

theorem insert_heapProp {cmp : V → V → Int} {mode : Mode} (hc : CmpContract cmp)
    {l : List V} (hp : heapProp cmp mode l) (x : V) :
    heapProp cmp mode (insert cmp mode l x) := by
  unfold insert
  split
  · exact heapProp_short (by omega)
  · rename_i hne
    have hlen : (l ++ [x]).length = l.length + 1 := by simp
    have hl1 : 1 ≤ l.length := by omega
    apply heapUp_heapProp hc
    · omega
    · omega
    · constructor
      · intro i j hj hjlen hjk
        rw [hlen] at hjlen
        have hjl : j < l.length := by omega
        have hil : i < l.length := by omega
        rw [jget_append_lt l x j hjl, jget_append_lt l x i hil]
        exact hp i j hj hjl
      · intro j hj hjlen
        rw [hlen] at hjlen
        omega

/-! ### Correctness of sift-down -/

theorem downChildIndex_mem (cmp : V → V → Int) (mode : Mode) (l : List V) (k : Nat) :
    downChildIndex cmp mode l k = 2 * k + 1 ∨ downChildIndex cmp mode l k = 2 * k + 2 := by
  unfold downChildIndex
  split
  · split <;> split <;> omega
  · omega

theorem downChildIndex_gt (cmp : V → V → Int) (mode : Mode) (l : List V) (k : Nat) :
    k < downChildIndex cmp mode l k := by
  rcases downChildIndex_mem cmp mode l k with h | h <;> omega

theorem downChildIndex_lt_len (cmp : V → V → Int) (mode : Mode) (l : List V) (k : Nat)
    (h : 2 * k + 1 < l.length) : downChildIndex cmp mode l k < l.length := by
  unfold downChildIndex
  split
  · split <;> split <;> omega
  · exact h

theorem downChildIndex_right_bound (cmp : V → V → Int) (mode : Mode) (l : List V) (k : Nat)
    (h : downChildIndex cmp mode l k = 2 * k + 2) : 2 * k + 2 < l.length := by
  unfold downChildIndex at h
  by_cases hb : 2 * k + 1 < l.length ∧ 2 * k + 2 < l.length
  · exact hb.2
  · rw [if_neg hb] at h
    omega

/-- With both children in bounds, the chosen child is "not worse than"
either child. -/
theorem downChildIndex_le_children {cmp : V → V → Int} {mode : Mode}
    (hc : CmpContract cmp) {l : List V} {k : Nat}
    (h1 : 2 * k + 1 < l.length) (h2 : 2 * k + 2 < l.length) (j : Nat)
    (hj : j = 2 * k + 1 ∨ j = 2 * k + 2) :
    modeLe cmp mode (jget l (downChildIndex cmp mode l k)) (jget l j) := by
  cases mode
  · -- Min mode: pick the lower-ranked child (right on ties)
    simp only [downChildIndex, if_pos (And.intro h1 h2)]
    by_cases hcmp : 0 ≤ cmp (jget l (2 * k + 1)) (jget l (2 * k + 2))
    · rw [if_pos hcmp]
      rcases hj with rfl | rfl
      · exact (hc.flip _ _).mp hcmp
      · exact modeLe_refl hc Mode.MinHeap _
    · rw [if_neg hcmp]
      rcases hj with rfl | rfl
      · exact modeLe_refl hc Mode.MinHeap _
      · simp only [modeLe]
        omega
  · -- Max mode: pick the higher-ranked child (left on ties)
    simp only [downChildIndex, if_pos (And.intro h1 h2)]
    by_cases hcmp : 0 ≤ cmp (jget l (2 * k + 1)) (jget l (2 * k + 2))
    · rw [if_pos hcmp]
      rcases hj with rfl | rfl
      · exact modeLe_refl hc Mode.MaxHeap _
      · exact hcmp
    · rw [if_neg hcmp]
      rcases hj with rfl | rfl
      · exact (hc.flip _ _).mpr (by omega)
      · exact modeLe_refl hc Mode.MaxHeap _

theorem heapProp_of_downInv_leaf {cmp : V → V → Int} {mode : Mode} {l : List V} {k : Nat}
    (hinv : downInv cmp mode l k) (hleaf : l.length ≤ 2 * k + 1) :
    heapProp cmp mode l := by
  intro i j hj hjlen
  by_cases hik : i = k
  · rw [hik] at hj
    omega
  · exact hinv.1 i j hj hjlen hik

theorem heapProp_of_downInv_stop {cmp : V → V → Int} {mode : Mode}
    (hc : CmpContract cmp) {l : List V} {k : Nat}
    (hinv : downInv cmp mode l k) (hlen : 2 * k + 1 < l.length)
    (hstop : modeLe cmp mode (jget l k) (jget l (downChildIndex cmp mode l k))) :
    heapProp cmp mode l := by
  intro i j hj hjlen
  by_cases hik : i = k
  · rw [hik] at hj ⊢
    by_cases hjd : j = downChildIndex cmp mode l k
    · rw [hjd]
      exact hstop
    · have hmem := downChildIndex_mem cmp mode l k
      have h2 : 2 * k + 2 < l.length := by
        rcases hmem with hm | hm
        · rcases hj with hj' | hj'
          · exact absurd (by omega : j = downChildIndex cmp mode l k) hjd
          · omega
        · exact downChildIndex_right_bound cmp mode l k hm
      exact modeLe_trans hc hstop (downChildIndex_le_children hc hlen h2 j hj)
  · exact hinv.1 i j hj hjlen hik

theorem downInv_swap {cmp : V → V → Int} {mode : Mode} (hc : CmpContract cmp)
    {l : List V} {k : Nat}
    (hlen : 2 * k + 1 < l.length) (hinv : downInv cmp mode l k)
    (hlt : modeLe cmp mode (jget l (downChildIndex cmp mode l k)) (jget l k)) :
    downInv cmp mode (swap l k (downChildIndex cmp mode l k))
      (downChildIndex cmp mode l k) := by
  set d := downChildIndex cmp mode l k with hd
  have hmem : d = 2 * k + 1 ∨ d = 2 * k + 2 := downChildIndex_mem cmp mode l k
  have hkd : k < d := downChildIndex_gt cmp mode l k
  have hdlen : d < l.length := downChildIndex_lt_len cmp mode l k hlen
  have hklen : k < l.length := by omega
  have hsk : jget (swap l k d) k = jget l d := jget_swap_fst l k d hklen
  have hsd : jget (swap l k d) d = jget l k := jget_swap_snd l k d hdlen (by omega)
  have hslen : (swap l k d).length = l.length := length_swap l k d
  constructor
  · intro i j hj hjlen' hid
    rw [hslen] at hjlen'
    obtain ⟨hij, hj1⟩ := parent_of_child hj
    by_cases hik : i = k
    · -- edges out of the old hole `i = k`
      rw [hik] at hj ⊢
      by_cases hjd : j = d
      · rw [hjd, hsk, hsd]
        exact hlt
      · have h2 : 2 * k + 2 < l.length := by
          rcases hmem with hm | hm
          · rcases hj with hj' | hj'
            · exact absurd (by omega : j = d) hjd
            · omega
          · exact downChildIndex_right_bound cmp mode l k (by rw [← hd]; exact hm)
        rw [hsk, jget_swap_other l k d j (by omega) hjd]
        exact downChildIndex_le_children hc hlen h2 j hj
    · by_cases hjk : j = k
      · -- the edge into the old hole: `i` is `k`'s parent
        rw [hjk] at hj hij ⊢
        have hk1 : k ≠ 0 := by omega
        rw [jget_swap_other l k d i hik (by omega), hsk, hij]
        exact hinv.2 d hmem hdlen hk1
      · by_cases hjd : j = d
        · -- `j = d`: then `i` is `d`'s parent, which is `k` — contradiction
          rw [hjd] at hij
          exact absurd (by omega : i = k) hik
        · rw [jget_swap_other l k d i hik (by omega),
            jget_swap_other l k d j hjk hjd]
          exact hinv.1 i j hj hjlen' hik
  · intro j hj hjlen' hd0
    rw [hslen] at hjlen'
    have hparent : (d - 1) / 2 = k := by omega
    rw [hparent, hsk]
    have hjd : j ≠ d := by omega
    have hjk : j ≠ k := by omega
    rw [jget_swap_other l k d j hjk hjd]
    exact hinv.1 d j hj hjlen' (by omega)

theorem heapDown_heapProp {cmp : V → V → Int} {mode : Mode} (hc : CmpContract cmp) :
    ∀ (l : List V) (k : Nat), downInv cmp mode l k →
      heapProp cmp mode (heapDown cmp mode l k) := by
  intro l k
  induction l, k using heapDown.induct cmp mode with
  | case1 l k hleaf =>
      intro hinv
      rw [heapDown.eq_def, if_pos hleaf]
      exact heapProp_of_downInv_leaf hinv hleaf
  | case2 l k hleaf hstop =>
      intro hinv
      rw [heapDown.eq_def, if_neg hleaf, if_pos hstop]
      exact heapProp_of_downInv_stop hc hinv (by omega)
        ((downStop_iff mode _ _).mp hstop)
  | case3 l k hleaf hstop ih =>
      intro hinv
      rw [heapDown.eq_def, if_neg hleaf, if_neg hstop]
      have hlt : modeLe cmp mode (jget l (downChildIndex cmp mode l k)) (jget l k) :=
        modeLe_of_not_modeLe hc (fun h => hstop ((downStop_iff mode _ _).mpr h))
      exact ih (downInv_swap hc (by omega) hinv hlt)

/-- After moving the last element to the root and shrinking, the storage of
a heap satisfies the sift-down precondition at the root. -/
theorem downInv_popAssignRoot {cmp : V → V → Int} {mode : Mode} {l : List V}
    (hp : heapProp cmp mode l) : downInv cmp mode (popAssignRoot l) 0 := by
  unfold popAssignRoot
  split
  · constructor
    · intro i j hj hjlen hik
      simp at hjlen
      omega
    · intro j hj hjlen h0
      exact absurd rfl h0
  · rename_i hne
    have hlen0 : 1 ≤ l.length := by omega
    have hlen : ((l.dropLast).set 0 (l.getLastD default)).length = l.length - 1 := by
      simp [List.length_dropLast]
    constructor
    · intro i j hj hjlen hik
      rw [hlen] at hjlen
      have hj0 : j ≠ 0 := by omega
      have hi : i < l.length - 1 := by omega
      rw [jget_set_ne _ _ _ _ (Ne.symm hik), jget_set_ne _ _ _ _ (Ne.symm hj0),
        jget_dropLast _ _ hi, jget_dropLast _ _ hjlen]
      exact hp i j hj (by omega)
    · intro j hj hjlen h0
      exact absurd rfl h0

theorem remove_heapProp {cmp : V → V → Int} {mode : Mode} (hc : CmpContract cmp)
    {l : List V} (hp : heapProp cmp mode l) :
    heapProp cmp mode (remove cmp mode l).2 := by
  unfold remove
  split
  · exact heapProp_short (by simp)
  · exact heapDown_heapProp hc _ 0 (downInv_popAssignRoot hp)

/-- Claim C2's core: every storage reachable through the public interface
satisfies the heap property. -/
theorem reachable_heapProp {cmp : V → V → Int} {mode : Mode} (hc : CmpContract cmp)
    {l : List V} (h : Reachable cmp mode l) : heapProp cmp mode l := by
  induction h with
  | empty => exact heapProp_short (by simp)
  | insertStep l x _ ih => exact insert_heapProp hc ih x
  | removeStep l _ ih => exact remove_heapProp hc ih

/-! ### The root is extremal; operations permute the storage -/

/-- In a storage satisfying the heap property, the root is "not worse than"
every stored element. -/
theorem heapProp_root_le {cmp : V → V → Int} {mode : Mode} (hc : CmpContract cmp)
    {l : List V} (hp : heapProp cmp mode l) :
    ∀ j, j < l.length → modeLe cmp mode (jget l 0) (jget l j) := by
  intro j
  induction j using Nat.strong_induction_on with
  | _ j ih =>
      intro hjlen
      rcases Nat.eq_zero_or_pos j with rfl | hj0
      · exact modeLe_refl hc mode _
      · have hparent : j = 2 * ((j - 1) / 2) + 1 ∨ j = 2 * ((j - 1) / 2) + 2 := by omega
        have hedge := hp ((j - 1) / 2) j hparent hjlen
        have hih := ih ((j - 1) / 2) (by omega) (by omega)
        exact modeLe_trans hc hih hedge

theorem heapDown_length (cmp : V → V → Int) (mode : Mode) :
    ∀ (l : List V) (k : Nat), (heapDown cmp mode l k).length = l.length := by
  intro l k
  induction l, k using heapDown.induct cmp mode with
  | case1 l k hleaf => rw [heapDown.eq_def, if_pos hleaf]
  | case2 l k hleaf hstop => rw [heapDown.eq_def, if_neg hleaf, if_pos hstop]
  | case3 l k hleaf hstop ih =>
      rw [heapDown.eq_def, if_neg hleaf, if_neg hstop, ih, length_swap]

theorem heapUp_length (cmp : V → V → Int) (mode : Mode) :
    ∀ (l : List V) (k : Nat), (heapUp cmp mode l k).length = l.length := by
  intro l k
  induction l, k using heapUp.induct cmp mode with
  | case1 l k hstop => rw [heapUp.eq_def, if_pos hstop]
  | case2 l k hstop hp0 => rw [heapUp.eq_def, if_neg hstop, if_pos hp0, length_swap]
  | case3 l k hstop hp0 ih =>
      rw [heapUp.eq_def, if_neg hstop, if_neg hp0, ih, length_swap]

theorem insert_length (cmp : V → V → Int) (mode : Mode) (l : List V) (x : V) :
    (insert cmp mode l x).length = l.length + 1 := by
  unfold insert
  split
  · simp
  · rw [heapUp_length]
    simp

theorem popAssignRoot_length (l : List V) (h : 1 ≤ l.length) :
    (popAssignRoot l).length = l.length - 1 := by
  unfold popAssignRoot
  rw [if_neg (by omega)]
  simp [List.length_dropLast]

theorem remove_length (cmp : V → V → Int) (mode : Mode) (l : List V) (h : 1 ≤ l.length) :
    ((remove cmp mode l).2).length = l.length - 1 := by
  unfold remove
  split
  · rename_i h1
    simp [h1]
  · rw [heapDown_length, popAssignRoot_length l h]

theorem heapDown_perm (cmp : V → V → Int) (mode : Mode) :
    ∀ (l : List V) (k : Nat), List.Perm (heapDown cmp mode l k) l := by
  intro l k
  induction l, k using heapDown.induct cmp mode with
  | case1 l k hleaf => rw [heapDown.eq_def, if_pos hleaf]
  | case2 l k hleaf hstop => rw [heapDown.eq_def, if_neg hleaf, if_pos hstop]
  | case3 l k hleaf hstop ih =>
      rw [heapDown.eq_def, if_neg hleaf, if_neg hstop]
      have hklen : k < l.length := by omega
      have hdlen : downChildIndex cmp mode l k < l.length :=
        downChildIndex_lt_len cmp mode l k (by omega)
      exact ih.trans (swap_perm l k (downChildIndex cmp mode l k) hklen hdlen)

theorem heapUp_perm (cmp : V → V → Int) (mode : Mode) :
    ∀ (l : List V) (k : Nat), k < l.length → List.Perm (heapUp cmp mode l k) l := by
  intro l k
  induction l, k using heapUp.induct cmp mode with
  | case1 l k hstop =>
      intro hklen
      rw [heapUp.eq_def, if_pos hstop]
  | case2 l k hstop hp0 =>
      intro hklen
      rw [heapUp.eq_def, if_neg hstop, if_pos hp0]
      exact swap_perm l k ((k - 1) / 2) hklen (by omega)
  | case3 l k hstop hp0 ih =>
      intro hklen
      rw [heapUp.eq_def, if_neg hstop, if_neg hp0]
      have hperm := ih (by rw [length_swap]; omega)
      exact hperm.trans (swap_perm l k ((k - 1) / 2) hklen (by omega))

theorem insert_perm (cmp : V → V → Int) (mode : Mode) (l : List V) (x : V) :
    List.Perm (insert cmp mode l x) (l ++ [x]) := by
  unfold insert
  split
  · exact List.Perm.refl _
  · exact heapUp_perm cmp mode (l ++ [x]) _ (by simp)

/-- The removed root together with the updated storage is a permutation of
the original storage. -/
theorem remove_perm (cmp : V → V → Int) (mode : Mode) (l : List V) (h : 1 ≤ l.length) :
    List.Perm ((remove cmp mode l).1 :: (remove cmp mode l).2) l := by
  unfold remove
  split
  · rename_i h1
    obtain ⟨a, rfl⟩ := List.length_eq_one.mp h1
    simp
  · rename_i h1
    have h2 : 2 ≤ l.length := by omega
    simp only
    have hperm := heapDown_perm cmp mode (popAssignRoot l) 0
    refine List.Perm.trans (List.Perm.cons _ hperm) ?_
    -- decompose l = a :: (m ++ [z])
    obtain ⟨a, t, rfl⟩ : ∃ a t, l = a :: t := by
      cases l with
      | nil => simp at h2
      | cons a t => exact ⟨a, t, rfl⟩
    have ht : t ≠ [] := by
      intro hnil
      rw [hnil] at h2
      simp at h2
    obtain ⟨m, z, rfl⟩ : ∃ m z, t = m ++ [z] := by
      rcases List.eq_nil_or_concat t with hnil | ⟨m, z, hmz⟩
      · exact absurd hnil ht
      · exact ⟨m, z, by simpa using hmz⟩
    have hroot : jget (a :: (m ++ [z])) 0 = a := by simp [jget]
    have hpop : popAssignRoot (a :: (m ++ [z])) = z :: m := by
      unfold popAssignRoot
      rw [if_neg (by simp)]
      have hdl : (a :: (m ++ [z])).dropLast = a :: m := by
        rw [show a :: (m ++ [z]) = (a :: m) ++ [z] by simp]
        exact List.dropLast_concat
      have hlast : (a :: (m ++ [z])).getLastD default = z := by
        rw [show a :: (m ++ [z]) = (a :: m) ++ [z] by simp]
        exact List.getLastD_concat _ _ _
      rw [hdl, hlast]
      rfl
    rw [hroot, hpop]
    -- a :: z :: m ~ a :: (m ++ [z])
    refine List.Perm.cons a ?_
    exact (List.perm_append_singleton z m).symm

/-! ### Draining the heap -/

theorem remove_fst (cmp : V → V → Int) (mode : Mode) (l : List V) (h : 1 ≤ l.length) :
    (remove cmp mode l).1 = jget l 0 := by
  unfold remove
  split
  · rename_i h1
    obtain ⟨a, rfl⟩ := List.length_eq_one.mp h1
    simp [jget]
  · rfl

/-- Draining a heap that satisfies the heap property yields a permutation of
its storage, sorted by the mode-appropriate relation. -/
theorem drain_perm_sorted {cmp : V → V → Int} {mode : Mode} (hc : CmpContract cmp) :
    ∀ (n : Nat) (l : List V), l.length = n → heapProp cmp mode l →
      List.Perm (drain cmp mode l) l ∧
        List.Pairwise (modeLe cmp mode) (drain cmp mode l) := by
  intro n
  induction n using Nat.strong_induction_on with
  | _ n ih =>
      intro l hlen hp
      match n, hlen with
      | 0, hlen =>
          have hnil : l = [] := List.length_eq_zero.mp hlen
          subst hnil
          exact ⟨List.Perm.refl _, List.Pairwise.nil⟩
      | (m + 1), hlen =>
          have h1 : 1 ≤ l.length := by omega
          have hrl : (remove cmp mode l).2.length = m := by
            rw [remove_length _ _ _ h1]
            omega
          have hdrain : drain cmp mode l
              = (remove cmp mode l).1 :: drain cmp mode (remove cmp mode l).2 := by
            unfold drain
            rw [hlen, hrl]
            rfl
          obtain ⟨ihp, ihs⟩ := ih m (by omega) (remove cmp mode l).2 hrl
            (remove_heapProp hc hp)
          constructor
          · rw [hdrain]
            exact (List.Perm.cons _ ihp).trans (remove_perm cmp mode l h1)
          · rw [hdrain]
            refine List.Pairwise.cons ?_ ihs
            intro y hy
            have hys : y ∈ (remove cmp mode l).2 := ihp.mem_iff.mp hy
            have hyl : y ∈ l :=
              (remove_perm cmp mode l h1).mem_iff.mp (List.mem_cons_of_mem _ hys)
            obtain ⟨j, hjlen, hjy⟩ := List.mem_iff_getElem.mp hyl
            have hroot := heapProp_root_le hc hp j hjlen
            rw [jget_eq_getElem l j hjlen, hjy] at hroot
            rw [remove_fst cmp mode l h1]
            exact hroot

theorem foldl_insert_perm (cmp : V → V → Int) (mode : Mode) :
    ∀ (xs l : List V), List.Perm (xs.foldl (insert cmp mode) l) (l ++ xs) := by
  intro xs
  induction xs with
  | nil =>
      intro l
      simp
  | cons x xs ih =>
      intro l
      simp only [List.foldl_cons]
      have h1 := ih (insert cmp mode l x)
      have h2 : List.Perm (insert cmp mode l x ++ xs) (l ++ x :: xs) := by
        have h3 := (insert_perm cmp mode l x).append_right xs
        simpa using h3
      exact h1.trans h2

theorem foldl_insert_heapProp {cmp : V → V → Int} {mode : Mode} (hc : CmpContract cmp) :
    ∀ (xs l : List V), heapProp cmp mode l →
      heapProp cmp mode (xs.foldl (insert cmp mode) l) := by
  intro xs
  induction xs with
  | nil =>
      intro l hl
      exact hl
  | cons x xs ih =>
      intro l hl
      exact ih _ (insert_heapProp hc hl x)

theorem foldl_insert_length (cmp : V → V → Int) (mode : Mode) :
    ∀ (xs l : List V), (xs.foldl (insert cmp mode) l).length = l.length + xs.length := by
  intro xs
  induction xs with
  | nil =>
      intro l
      simp
  | cons x xs ih =>
      intro l
      simp only [List.foldl_cons]
      rw [ih, insert_length]
      simp
      omega

theorem removeN_length (cmp : V → V → Int) (mode : Mode) :
    ∀ (k : Nat) (l : List V), k ≤ l.length →
      (removeN cmp mode k l).length = l.length - k := by
  intro k
  induction k with
  | zero =>
      intro l _
      rfl
  | succ m ih =>
      intro l hk
      have h1 : 1 ≤ l.length := by omega
      have h2 := remove_length cmp mode l h1
      unfold removeN
      rw [ih _ (by omega), h2]
      omega

/-! ### The sifting algorithms match the spec's description -/

theorem siftUpSpec_pos (cmp : V → V → Int) (mode : Mode) (l : List V) (k : Nat)
    (hk : 1 ≤ k) :
    siftUpSpec cmp mode l k =
      if 0 ≤ cmp (jget l k) (jget l ((k - 1) / 2)) * upSign mode then l
      else siftUpSpec cmp mode (swap l k ((k - 1) / 2)) ((k - 1) / 2) := by
  obtain ⟨i, rfl⟩ : ∃ i, k = i + 1 := ⟨k - 1, by omega⟩
  simp only [Nat.add_sub_cancel]
  cases mode
  · rw [siftUpSpec.eq_3]
    simp only [upSign, mul_one]
  · rw [siftUpSpec.eq_2]
    simp only [upSign, mul_neg_one]

theorem heapUp_eq_siftUpSpec (cmp : V → V → Int) (mode : Mode) :
    ∀ (l : List V) (k : Nat), 1 ≤ k → heapUp cmp mode l k = siftUpSpec cmp mode l k := by
  intro l k
  induction l, k using heapUp.induct cmp mode with
  | case1 l k hstop =>
      intro hk
      rw [heapUp.eq_def, if_pos hstop, siftUpSpec_pos cmp mode l k hk, if_pos hstop]
  | case2 l k hstop hp0 =>
      intro hk
      rw [heapUp.eq_def, if_neg hstop, if_pos hp0, siftUpSpec_pos cmp mode l k hk,
        if_neg hstop, hp0, siftUpSpec.eq_1]
  | case3 l k hstop hp0 ih =>
      intro hk
      rw [heapUp.eq_def, if_neg hstop, if_neg hp0, siftUpSpec_pos cmp mode l k hk,
        if_neg hstop]
      exact ih (by omega)

theorem siftDownSpec_sign (cmp : V → V → Int) (mode : Mode) (l : List V) (k : Nat) :
    siftDownSpec cmp mode l k =
      if l.length ≤ 2 * k + 1 then l
      else if 0 ≤ cmp (jget l k) (jget l (downChildIndex cmp mode l k)) * downSign mode then l
      else siftDownSpec cmp mode (swap l k (downChildIndex cmp mode l k))
        (downChildIndex cmp mode l k) := by
  cases mode <;> rw [siftDownSpec.eq_def] <;> simp only [downSign, mul_one, mul_neg_one]

theorem heapDown_eq_siftDownSpec (cmp : V → V → Int) (mode : Mode) :
    ∀ (l : List V) (k : Nat), heapDown cmp mode l k = siftDownSpec cmp mode l k := by
  intro l k
  induction l, k using heapDown.induct cmp mode with
  | case1 l k hleaf =>
      rw [heapDown.eq_def, if_pos hleaf, siftDownSpec_sign, if_pos hleaf]
  | case2 l k hleaf hstop =>
      rw [heapDown.eq_def, if_neg hleaf, if_pos hstop, siftDownSpec_sign,
        if_neg hleaf, if_pos hstop]
  | case3 l k hleaf hstop ih =>
      rw [heapDown.eq_def, if_neg hleaf, if_neg hstop, siftDownSpec_sign,
        if_neg hleaf, if_neg hstop]
      exact ih

/-- Claim C8's core: `insert` is exactly append-then-sift-up as the spec
words it. -/
theorem insert_eq_insertSpec (cmp : V → V → Int) (mode : Mode) (l : List V) (x : V) :
    insert cmp mode l x = insertSpec cmp mode l x := by
  unfold insert insertSpec
  split
  · rename_i h1
    rw [show (l ++ [x]).length - 1 = 0 by omega, siftUpSpec.eq_1]
  · rename_i h1
    have hlen : (l ++ [x]).length = l.length + 1 := by simp
    exact heapUp_eq_siftUpSpec cmp mode (l ++ [x]) _ (by omega)

/-- Claim C8's tie clause: a comparator tie between the sifted element and
its parent never triggers a swap. -/
theorem heapUp_tie (cmp : V → V → Int) (mode : Mode) (l : List V) (k : Nat)
    (htie : cmp (jget l k) (jget l ((k - 1) / 2)) = 0) :
    heapUp cmp mode l k = l := by
  rw [heapUp.eq_def, if_pos (by rw [htie]; cases mode <;> simp [upSign])]

/-- Claim C9's core: `remove` on a non-empty heap is exactly the spec's
description (single-element pop, or move-last-to-root then sift-down). -/
theorem remove_eq_removeSpec (cmp : V → V → Int) (mode : Mode) (l : List V)
    (h : l ≠ []) : remove cmp mode l = removeSpec cmp mode l := by
  unfold remove removeSpec
  split
  · rfl
  · have hlen : ¬ l.length = 0 := by
      intro h0
      exact h (List.length_eq_zero.mp h0)
    rw [popAssignRoot, if_neg hlen, heapDown_eq_siftDownSpec]

/-! ### Small evaluation helpers -/

/-- Comparators of the form `r a - r b` satisfy the comparator contract. -/
theorem sub_rank_contract {W : Type} (r : W → Int) :
    CmpContract (fun a b => r a - r b) := by
  constructor
  · intro a b
    omega
  · intro a b c h1 h2
    omega

theorem peek_nil {α : Type} : peek ([] : List (JSVal α)) = JSVal.bool false := rfl

theorem peek_ne_nil {α : Type} {l : List (JSVal α)} (h : l ≠ []) :
    peek l = jget l 0 := by
  unfold peek
  rw [if_pos]
  intro h0
  exact h (List.length_eq_zero.mp h0)

/-- What `remove` actually does on an empty storage: it returns `undefined`
and leaves the storage holding the single element `undefined`. -/
theorem remove_empty_eval {α : Type} (cmp : JSVal α → JSVal α → Int) (mode : Mode) :
    remove cmp mode ([] : List (JSVal α)) = (JSVal.undef, [JSVal.undef]) := by
  unfold remove
  rw [if_neg (by simp)]
  have hpar : popAssignRoot ([] : List (JSVal α)) = [JSVal.undef] := by
    unfold popAssignRoot
    rw [if_pos (show ([] : List (JSVal α)).length = 0 by rfl)]
    rfl
  rw [hpar, heapDown.eq_def, if_pos (by simp)]
  rfl

/-- `remove` on a single-element storage pops and returns that element. -/
theorem remove_single_eval (cmp : V → V → Int) (mode : Mode) (x : V) :
    remove cmp mode [x] = (x, []) := by
  unfold remove
  rw [if_pos (show ([x] : List V).length = 1 by rfl)]
  rfl

/-! ### The claims -/

/-- C1: for every mode and consistent total-order comparator, inserting any
finite sequence one element at a time and then repeatedly removing drains
the heap in sorted order — ascending for Min and descending for Max, which
is exactly `List.Pairwise (modeLe cmp mode)` — and the drained sequence is a
permutation of the inserted one (multiplicity preserved). -/
theorem claim_C1 {V : Type} [Inhabited V] (cmp : V → V → Int) (mode : Mode)
    (hc : CmpContract cmp) (xs : List V) :
    List.Pairwise (modeLe cmp mode) (drain cmp mode (xs.foldl (insert cmp mode) [])) ∧
    List.Perm (drain cmp mode (xs.foldl (insert cmp mode) [])) xs := by
  have hp : heapProp cmp mode (xs.foldl (insert cmp mode) []) :=
    foldl_insert_heapProp hc xs [] (heapProp_short (by simp))
  obtain ⟨hperm, hsort⟩ := drain_perm_sorted hc _ _ rfl hp
  refine ⟨hsort, hperm.trans ?_⟩
  have h1 := foldl_insert_perm cmp mode xs []
  simpa using h1

theorem claim_C1_witness :
    List.Pairwise (modeLe (fun a b : Int => a - b) Mode.MinHeap)
      (drain (fun a b : Int => a - b) Mode.MinHeap
        (([5, 1, 19, 2, -1, 10] : List Int).foldl
          (insert (fun a b : Int => a - b) Mode.MinHeap) [])) ∧
    List.Perm
      (drain (fun a b : Int => a - b) Mode.MinHeap
        (([5, 1, 19, 2, -1, 10] : List Int).foldl
          (insert (fun a b : Int => a - b) Mode.MinHeap) []))
      [5, 1, 19, 2, -1, 10] :=
  claim_C1 (fun a b : Int => a - b) Mode.MinHeap (sub_rank_contract (fun a => a))
    [5, 1, 19, 2, -1, 10]

/-- C2: for every heap built with a consistent total-order comparator, after
any sequence of insert and remove calls starting from the fresh empty
storage, the heap property holds: every in-bounds parent-child pair is
related by `comparator(parent, child) ≤ 0` in Min mode and `≥ 0` in Max
mode. -/
theorem claim_C2 {V : Type} [Inhabited V] (cmp : V → V → Int) (mode : Mode)
    (hc : CmpContract cmp) {l : List V} (h : Reachable cmp mode l) :
    heapProp cmp mode l :=
  reachable_heapProp hc h

theorem claim_C2_witness :
    heapProp (fun a b : Int => a - b) Mode.MinHeap
      ((remove (fun a b : Int => a - b) Mode.MinHeap
        (insert (fun a b : Int => a - b) Mode.MinHeap
          (insert (fun a b : Int => a - b) Mode.MinHeap [] 5) 2)).2) :=
  claim_C2 (fun a b : Int => a - b) Mode.MinHeap (sub_rank_contract (fun a => a))
    (Reachable.removeStep _ (Reachable.insertStep _ 2 (Reachable.insertStep _ 5 Reachable.empty)))

/-- C3: the claim says remove() on an empty heap returns the empty sentinel
and leaves the heap unchanged (still empty).  The code instead executes the
general branch: `storage[0] = storage.pop()` on an empty array stores
`undefined`, so remove() returns `undefined` and leaves a one-element
storage `[undefined]`.  This theorem evaluates the code at the failing
input, exhibiting the divergence. -/
theorem claim_C3_failing {α : Type} (cmp : JSVal α → JSVal α → Int) (mode : Mode) :
    remove cmp mode ([] : List (JSVal α)) = (JSVal.undef, [JSVal.undef]) ∧
    (remove cmp mode ([] : List (JSVal α))).2 ≠ ([] : List (JSVal α)) := by
  refine ⟨remove_empty_eval cmp mode, ?_⟩
  rw [remove_empty_eval cmp mode]
  simp

/-- C4 (counterexample): the sentinel remove() returns on an empty heap is
`undefined`, which is not the sentinel `false` that peek() returns, so the
two sentinels are not the same value. -/
theorem claim_C4_counterexample :
    (remove (fun _ _ : JSVal Int => 0) Mode.MinHeap ([] : List (JSVal Int))).1
      ≠ peek ([] : List (JSVal Int)) := by
  rw [remove_empty_eval, peek_nil]
  simp

/-- C4 (amended): on a newly constructed heap, peek() returns the sentinel
`false` while remove() returns `undefined`; both are falsy JS values but
they are distinct sentinels. -/
theorem claim_C4 {α : Type} (cmp : JSVal α → JSVal α → Int) (mode : Mode) :
    peek ([] : List (JSVal α)) = JSVal.bool false ∧
    (remove cmp mode ([] : List (JSVal α))).1 = JSVal.undef ∧
    (JSVal.undef : JSVal α) ≠ JSVal.bool false := by
  refine ⟨peek_nil, ?_, by simp⟩
  rw [remove_empty_eval cmp mode]

/-- C5 (counterexample): with an invalid mode and a non-callable comparator
together, construction fails with InvalidMode, not InvalidComparator — so
"fails with InvalidComparator if and only if the comparator argument is not
callable" is false as stated. -/
theorem claim_C5_counterexample :
    (init ModeArg.invalid ComparatorArg.notFunction : Except String (Heap Int))
        = Except.error "Invalid mode" ∧
    (init ModeArg.invalid ComparatorArg.notFunction : Except String (Heap Int))
        ≠ Except.error "Invalid comparator" := by
  constructor
  · rfl
  · intro h
    rw [show (init ModeArg.invalid ComparatorArg.notFunction : Except String (Heap Int))
        = Except.error "Invalid mode" from rfl] at h
    simp at h

/-- C5 (amended): construction fails with InvalidMode iff the mode argument
is not one of the two recognized values; it fails with InvalidComparator iff
the mode is valid and the comparator is not callable (the mode is validated
first, so an invalid mode takes precedence); and `create()` with no
arguments succeeds, yielding a Min-mode heap with the default primitive
three-way comparator and empty storage. -/
theorem claim_C5 {α : Type} [LT α] [DecidableRel (fun a b : α => a < b)] :
    (∀ (ma : ModeArg) (ca : ComparatorArg α),
      init ma ca = Except.error "Invalid mode" ↔ ma = ModeArg.invalid) ∧
    (∀ (ma : ModeArg) (ca : ComparatorArg α),
      init ma ca = Except.error "Invalid comparator" ↔
        ma ≠ ModeArg.invalid ∧ ca = ComparatorArg.notFunction) ∧
    Factory (none : Option ModeArg) (none : Option (ComparatorArg α))
      = Except.ok (Heap.mk Mode.MinHeap naivePrimitiveComparator []) := by
  refine ⟨?_, ?_, rfl⟩
  · intro ma ca
    cases ma with
    | invalid => simp [init]
    | mode m =>
        cases ca with
        | notFunction =>
            simp only [init]
            constructor
            · intro h
              simp at h
            · intro h
              cases h
        | fn f =>
            simp only [init]
            constructor
            · intro h
              cases h
            · intro h
              cases h
  · intro ma ca
    cases ma with
    | invalid =>
        simp only [init]
        constructor
        · intro h
          simp at h
        · intro h
          exact absurd rfl h.1
    | mode m =>
        cases ca with
        | notFunction => simp [init]
        | fn f =>
            simp only [init]
            constructor
            · intro h
              cases h
            · intro h
              exact absurd h.2 (by simp)

theorem claim_C5_witness :
    (init ModeArg.invalid ComparatorArg.notFunction : Except String (Heap Int))
        = Except.error "Invalid mode" ∧
    (init (ModeArg.mode Mode.MinHeap) ComparatorArg.notFunction
        : Except String (Heap Int)) = Except.error "Invalid comparator" ∧
    Factory (none : Option ModeArg) (none : Option (ComparatorArg Int))
      = Except.ok (Heap.mk Mode.MinHeap naivePrimitiveComparator []) :=
  ⟨(claim_C5.1 ModeArg.invalid ComparatorArg.notFunction).mpr rfl,
   (claim_C5.2.1 (ModeArg.mode Mode.MinHeap) ComparatorArg.notFunction).mpr
     ⟨by simp, rfl⟩,
   claim_C5.2.2⟩

/-- C6: on every non-empty reachable heap, peek() returns the root element
of storage, and that element is "not worse than" every stored element — the
minimum in Min mode, the maximum in Max mode, per the comparator.  In the
embedding peek is a pure function of the storage (the source performs no
mutation), so repeated peeks trivially agree and leave remove() behaviour
unchanged. -/
theorem claim_C6 {α : Type} (cmp : JSVal α → JSVal α → Int) (mode : Mode)
    (hc : CmpContract cmp) {l : List (JSVal α)} (hr : Reachable cmp mode l)
    (hne : l ≠ []) :
    peek l = jget l 0 ∧
    (∀ j, j < l.length → modeLe cmp mode (peek l) (jget l j)) := by
  have hp := reachable_heapProp hc hr
  have hpeek := peek_ne_nil hne
  exact ⟨hpeek, fun j hj => by rw [hpeek]; exact heapProp_root_le hc hp j hj⟩

theorem claim_C6_witness :
    peek (insert (fun a b : JSVal Int =>
        (match a with | JSVal.val n => n | _ => 0) - (match b with | JSVal.val n => n | _ => 0))
      Mode.MinHeap [] (JSVal.val 5))
      = jget (insert (fun a b : JSVal Int =>
        (match a with | JSVal.val n => n | _ => 0) - (match b with | JSVal.val n => n | _ => 0))
      Mode.MinHeap [] (JSVal.val 5)) 0 ∧
    (∀ j, j < (insert (fun a b : JSVal Int =>
        (match a with | JSVal.val n => n | _ => 0) - (match b with | JSVal.val n => n | _ => 0))
      Mode.MinHeap [] (JSVal.val 5)).length →
      modeLe (fun a b : JSVal Int =>
        (match a with | JSVal.val n => n | _ => 0) - (match b with | JSVal.val n => n | _ => 0))
        Mode.MinHeap
        (peek (insert (fun a b : JSVal Int =>
          (match a with | JSVal.val n => n | _ => 0) - (match b with | JSVal.val n => n | _ => 0))
          Mode.MinHeap [] (JSVal.val 5)))
        (jget (insert (fun a b : JSVal Int =>
          (match a with | JSVal.val n => n | _ => 0) - (match b with | JSVal.val n => n | _ => 0))
          Mode.MinHeap [] (JSVal.val 5)) j)) :=
  claim_C6 _ Mode.MinHeap
    (sub_rank_contract (fun a => match a with | JSVal.val n => n | _ => 0))
    (Reachable.insertStep [] (JSVal.val 5) Reachable.empty)
    (by simp [insert])

/-- C7: after `n` inserts followed by `k ≤ n` removes on a fresh heap,
exactly `n - k` elements remain in storage: each insert grows storage by
one and each remove on a non-empty heap shrinks it by one. -/
theorem claim_C7 {V : Type} [Inhabited V] (cmp : V → V → Int) (mode : Mode)
    (xs : List V) (k : Nat) (hk : k ≤ xs.length) :
    (removeN cmp mode k (xs.foldl (insert cmp mode) [])).length = xs.length - k := by
  have hlen : (xs.foldl (insert cmp mode) []).length = xs.length := by
    rw [foldl_insert_length]
    simp
  rw [removeN_length cmp mode k _ (by rw [hlen]; exact hk), hlen]

theorem claim_C7_witness :
    (removeN (fun a b : Int => a - b) Mode.MinHeap 2
      (([3, 1, 2] : List Int).foldl (insert (fun a b : Int => a - b) Mode.MinHeap) [])).length
      = 1 :=
  claim_C7 (fun a b : Int => a - b) Mode.MinHeap [3, 1, 2] 2 (by decide)

/-- C8: insert appends the element and sifts up exactly as the spec words
it (parent of `i > 0` at `⌊(i-1)/2⌋`, comparator result negated in Max mode,
stop on adjusted result `≥ 0`, otherwise swap and recurse, terminating at
index 0); and a comparator tie with the parent never triggers a swap. -/
theorem claim_C8 {V : Type} [Inhabited V] (cmp : V → V → Int) (mode : Mode) :
    (∀ (l : List V) (x : V), insert cmp mode l x = insertSpec cmp mode l x) ∧
    (∀ (l : List V) (k : Nat), cmp (jget l k) (jget l ((k - 1) / 2)) = 0 →
      heapUp cmp mode l k = l) :=
  ⟨insert_eq_insertSpec cmp mode, fun l k htie => heapUp_tie cmp mode l k htie⟩

theorem claim_C8_witness :
    insert (fun a b : Int => a - b) Mode.MinHeap [3] 5
      = insertSpec (fun a b : Int => a - b) Mode.MinHeap [3] 5 ∧
    heapUp (fun a b : Int => a - b) Mode.MinHeap [7, 7] 1 = [7, 7] :=
  ⟨(claim_C8 (fun a b : Int => a - b) Mode.MinHeap).1 [3] 5,
   (claim_C8 (fun a b : Int => a - b) Mode.MinHeap).2 [7, 7] 1 (by decide)⟩

/-- C9: remove on a non-empty heap behaves exactly as the spec words it:
a single element is popped and returned with no sift; otherwise the root is
captured, the last element moves into the root position, storage shrinks by
one, and sift-down proceeds from the root with the spec's child choice and
Min-mode sign negation. -/
theorem claim_C9 {V : Type} [Inhabited V] (cmp : V → V → Int) (mode : Mode)
    (l : List V) (h : l ≠ []) :
    remove cmp mode l = removeSpec cmp mode l :=
  remove_eq_removeSpec cmp mode l h

theorem claim_C9_witness :
    remove (fun a b : Int => a - b) Mode.MinHeap [3, 1]
      = removeSpec (fun a b : Int => a - b) Mode.MinHeap [3, 1] :=
  claim_C9 (fun a b : Int => a - b) Mode.MinHeap [3, 1] (by simp)

/-- C10: remove() on an empty heap returns `undefined` and leaves storage
holding exactly the single element `undefined`; a following peek() then
returns `undefined` (not the empty sentinel `false`), and a following
remove() returns `undefined` and restores the storage to empty. -/
theorem claim_C10 {α : Type} (cmp : JSVal α → JSVal α → Int) (mode : Mode) :
    remove cmp mode ([] : List (JSVal α)) = (JSVal.undef, [JSVal.undef]) ∧
    peek [(JSVal.undef : JSVal α)] = JSVal.undef ∧
    peek [(JSVal.undef : JSVal α)] ≠ JSVal.bool false ∧
    remove cmp mode [(JSVal.undef : JSVal α)] = (JSVal.undef, []) := by
  refine ⟨remove_empty_eval cmp mode, ?_, ?_, remove_single_eval cmp mode JSVal.undef⟩
  · rw [peek_ne_nil (by simp)]
    rfl
  · rw [peek_ne_nil (by simp)]
    simp [jget]

end BinaryHeap
